import Mathlib

/-!
Verification of the core logic of the Zim "Dash" command-palette plugin
(`dash.py`): a bounded, whitelist-validated, recency-ordered history backed
by a JSON file (`ZimDashHistory`), and a menu-bar crawler that flattens the
nested menu into breadcrumb-label/action pairs (`ZimMenuBarCrawler.run`).

Python's `collections.deque` with `maxlen` is modelled by plain lists:
construction from a longer iterable keeps only the last `maxlen` elements,
`appendleft` on a full deque discards the rightmost element, and
`rotate(∓1)` rotates without dropping. File input/output is modelled by an
explicit `FileContent` value standing for whatever is at the history path,
and by the document a call hands to the backing store on a save.
-/

/-- Content of the history file as the plugin can encounter it: missing file,
unreadable file, malformed document (JSON parse error, or a document without
the expected "history" field), or a well-formed document whose "history"
field holds a list of labels, most recent first. -/
inductive FileContent where
  | absent : FileContent
  | unreadable : FileContent
  | malformed : FileContent
  | valid : List String → FileContent

/-- Python `deque(xs, maxlen=n)`: when `xs` is longer than `n`, only the last
`n` elements are retained; earlier elements are discarded from the left. -/
def dequeInit (xs : List String) (maxlen : Nat) : List String :=
  xs.drop (xs.length - maxlen)

/-- Python `deque.appendleft x` on a deque with `maxlen`: inserts at the
front; when the deque is already full, the rightmost element is discarded. -/
def dequeAppendLeft (x : String) (d : List String) (maxlen : Nat) : List String :=
  if d.length < maxlen then x :: d else (x :: d).dropLast

/-- Python `deque.rotate(-1)`: the first element moves to the end. -/
def rotL : List String → List String
  | [] => []
  | x :: xs => xs ++ [x]

/-- Python `deque.rotate(+1)`: the last element moves to the front. -/
def rotR (l : List String) : List String :=
  l.drop (l.length - 1) ++ l.take (l.length - 1)

/-- In-memory state of `ZimDashHistory` (dash.py 96-158): history file path,
whitelist of currently valid labels, capacity, and the deque of labels with
the most recent first. -/
structure ZimDashHistory where
  history_file : String
  history_whitelist : List String
  history_size : Nat
  history : List String
deriving Repr, DecidableEq

/-- The raw read step of `ZimDashHistory._load`: the missing-file check
returns early, and the blanket `except` clause collapses every exception
while opening, decoding or indexing the document into the same error
result. -/
def readHistoryField : FileContent → Except Unit (List String)
  | .absent => .error ()
  | .unreadable => .error ()
  | .malformed => .error ()
  | .valid h => .ok h

/-- `ZimDashHistory._load` (dash.py 104-120): `[]` on any failed read,
otherwise the entries of the "history" field that are in the whitelist, kept
in file order. -/
def ZimDashHistory.load (file : FileContent) (wl : List String) : List String :=
  match readHistoryField file with
  | .error _ => []
  | .ok data => data.filter (fun entry => decide (entry ∈ wl))

/-- `ZimDashHistory.__init__` (dash.py 98-102): the loaded list is poured
into a deque with `maxlen = history_size`. -/
def ZimDashHistory.init (path : String) (size : Nat) (wl : List String)
    (file : FileContent) : ZimDashHistory :=
  { history_file := path
    history_whitelist := wl
    history_size := size
    history := dequeInit (ZimDashHistory.load file wl) size }

/-- `ZimDashHistory.current` (dash.py 132-135): the first entry, or `None`
when the history is empty; no mutation. -/
def ZimDashHistory.current (s : ZimDashHistory) : Option String :=
  s.history.head?

/-- `ZimDashHistory.next` (dash.py 137-141): `None` on an empty history,
otherwise rotate left by one and return the new first entry. The second
component is the state after the call. -/
def ZimDashHistory.next (s : ZimDashHistory) : Option String × ZimDashHistory :=
  match s.history with
  | [] => (none, s)
  | _ :: _ => ((rotL s.history).head?, { s with history := rotL s.history })

/-- `ZimDashHistory.previous` (dash.py 143-147): `None` on an empty history,
otherwise rotate right by one and return the new first entry. -/
def ZimDashHistory.previous (s : ZimDashHistory) : Option String × ZimDashHistory :=
  match s.history with
  | [] => (none, s)
  | _ :: _ => ((rotR s.history).head?, { s with history := rotR s.history })

/-- `ZimDashHistory.update` (dash.py 149-158): if the entry is whitelisted,
rebuild the deque without that entry, push the entry at the front, and write
the record out (`_save`, dash.py 122-130); otherwise log and do nothing. The
second component is the document handed to the backing store, `none` when no
write happens. -/
def ZimDashHistory.update (s : ZimDashHistory) (new_entry : String) :
    ZimDashHistory × Option (List String) :=
  if new_entry ∈ s.history_whitelist then
    let d := dequeInit (s.history.filter (fun entry => decide (entry ≠ new_entry)))
      s.history_size
    let h := dequeAppendLeft new_entry d s.history_size
    ({ s with history := h }, some h)
  else
    (s, none)

/-- A sequence of confirmed selections: fold `update` over the labels in
call order, keeping only the in-memory state. -/
def applyUpdates (s : ZimDashHistory) (us : List String) : ZimDashHistory :=
  us.foldl (fun t u => (t.update u).1) s

/-- A menu node as the crawler sees it: `get_submenu()` yields either nothing
(`leaf`, an activatable item whose action handle we make opaque as a `Nat`)
or a submenu with an ordered child list (`menu`, possibly empty). A missing
`get_label` is `none`. -/
inductive MenuNode where
  | leaf : Option String → Nat → MenuNode
  | menu : Option String → List MenuNode → MenuNode

/-- The node's raw label, when the widget has one. -/
def MenuNode.label? : MenuNode → Option String
  | .leaf l _ => l
  | .menu l _ => l

/-- The guard `hasattr(child, "get_label") and child.get_label()`: a usable
label exists only when present and non-empty (Python falsiness of `""`). -/
def usableLabel (c : MenuNode) : Option String :=
  match c.label? with
  | some s => if s = "" then none else some s
  | none => none

/-- Python `label.replace("_", "")`: every underscore (GTK mnemonic marker)
is removed from the label. -/
def stripMnemonic (s : String) : String :=
  String.mk (s.data.filter (fun ch => decide (ch ≠ '_')))

mutual
/-- The inner `crawl` of `ZimMenuBarCrawler.run` (dash.py 167-174): a node
with a submenu contributes its children's results, each child visited only
when it has a usable label, with the breadcrumb extended by " > " plus the
stripped child label; a node without a submenu contributes one pair mapping
the breadcrumb built so far to its action handle. -/
def crawl : MenuNode → String → List (String × Nat)
  | .leaf _ act, path => [(path, act)]
  | .menu _ children, path => crawlChildren children path

/-- The loop `for child in container.get_submenu()` inside `crawl`. -/
def crawlChildren : List MenuNode → String → List (String × Nat)
  | [], _ => []
  | c :: cs, path =>
    (match usableLabel c with
     | some l => crawl c (path ++ " > " ++ stripMnemonic l)
     | none => []) ++ crawlChildren cs path
end

/-- `ZimMenuBarCrawler.run` (dash.py 163-180): the top-level loop over the
menu bar; a top-level item is crawled only when it has a usable label, with
the stripped label as initial breadcrumb. Pairs are listed in traversal
order; the Python dict keeps the last value for a repeated breadcrumb. -/
def ZimMenuBarCrawler.run : List MenuNode → List (String × Nat)
  | [] => []
  | c :: cs =>
    (match usableLabel c with
     | some l => crawl c (stripMnemonic l)
     | none => []) ++ ZimMenuBarCrawler.run cs

/-- Spec-side recency order: keep the first occurrence of every label. "The N
most recently updated distinct labels, most-recent-first" is `dedupFirst` of
the reversed call sequence. -/
def dedupFirst : List String → List String
  | [] => []
  | x :: xs => x :: (dedupFirst xs).filter (fun e => decide (e ≠ x))

/-- A root-to-leaf descent inside one crawled node: from a node already
entered, following children that expose the usable labels `ls`, in order,
down to a leaf with action handle `act`. -/
inductive Descends : MenuNode → List String → Nat → Prop where
  | leaf : ∀ ol act, Descends (.leaf ol act) [] act
  | step : ∀ ol cs c s ls act, c ∈ cs → usableLabel c = some s →
      Descends c ls act → Descends (.menu ol cs) (s :: ls) act

/-- The breadcrumb suffix contributed by descending through the raw labels
`ls`: each stripped label is joined on with the " > " separator. -/
def pathExt : List String → String
  | [] => ""
  | s :: ls => " > " ++ stripMnemonic s ++ pathExt ls

/-! ### Deque lemmas -/

theorem dequeInit_of_le (xs : List String) (N : Nat) (h : xs.length ≤ N) :
    dequeInit xs N = xs := by
  unfold dequeInit
  rw [Nat.sub_eq_zero_of_le h, List.drop_zero]

theorem dequeAppendLeft_eq_take (x : String) (d : List String) (N : Nat)
    (h : d.length ≤ N) : dequeAppendLeft x d N = (x :: d).take N := by
  unfold dequeAppendLeft
  by_cases hlt : d.length < N
  · rw [if_pos hlt, List.take_of_length_le (by simpa using hlt)]
  · rw [if_neg hlt, List.dropLast_eq_take]
    have hdN : d.length = N := le_antisymm h (not_lt.mp hlt)
    simp [hdN]

theorem rotL_rotR (l : List String) : rotL (rotR l) = l := by
  rcases List.eq_nil_or_concat l with h | ⟨ys, y, h⟩
  · subst h; rfl
  · rw [List.concat_eq_append] at h
    subst h
    have h1 : rotR (ys ++ [y]) = y :: ys := by
      unfold rotR
      have hlen : (ys ++ [y]).length - 1 = ys.length := by simp
      rw [hlen, List.drop_left, List.take_left]
      rfl
    rw [h1]
    rfl

theorem rotR_rotL (l : List String) : rotR (rotL l) = l := by
  cases l with
  | nil => rfl
  | cons x xs =>
    show rotR (xs ++ [x]) = x :: xs
    unfold rotR
    have hlen : (xs ++ [x]).length - 1 = xs.length := by simp
    rw [hlen, List.drop_left, List.take_left]
    rfl

theorem rotL_perm (l : List String) : (rotL l).Perm l := by
  cases l with
  | nil => rfl
  | cons x xs =>
    show (xs ++ [x]).Perm (x :: xs)
    exact List.perm_append_singleton x xs

theorem rotR_perm (l : List String) : (rotR l).Perm l := by
  have h := rotL_rotR l
  have hp := rotL_perm (rotR l)
  rw [h] at hp
  exact hp.symm

/-! ### State-level characterizations of the history operations -/

theorem next_state (f : String) (wl : List String) (n : Nat) (h : List String) :
    (ZimDashHistory.mk f wl n h).next.2 = ZimDashHistory.mk f wl n (rotL h) := by
  cases h <;> rfl

theorem previous_state (f : String) (wl : List String) (n : Nat) (h : List String) :
    (ZimDashHistory.mk f wl n h).previous.2 = ZimDashHistory.mk f wl n (rotR h) := by
  cases h with
  | nil => rfl
  | cons a t =>
    show _ = ZimDashHistory.mk f wl n (rotR (a :: t))
    rfl

theorem update_eq (s : ZimDashHistory) (x : String)
    (hx : x ∈ s.history_whitelist) (hlen : s.history.length ≤ s.history_size) :
    s.update x =
      ({ s with history :=
          (x :: s.history.filter (fun e => decide (e ≠ x))).take s.history_size },
       some ((x :: s.history.filter (fun e => decide (e ≠ x))).take s.history_size)) := by
  have hf : (s.history.filter (fun e => decide (e ≠ x))).length ≤ s.history_size :=
    le_trans (List.length_filter_le _ _) hlen
  simp only [ZimDashHistory.update, if_pos hx, dequeInit_of_le _ _ hf,
    dequeAppendLeft_eq_take _ _ _ hf]

/-! ### Claim theorems -/

/-- A concrete history state used to instantiate the hypotheses of the claim
theorems on explicit inputs. -/
def sampleState : ZimDashHistory :=
  { history_file := "dash.json"
    history_whitelist := ["a", "b", "c"]
    history_size := 5
    history := ["a", "b", "c"] }

/-- Claim C1: for every history state and whitelisted label `x`, `update x`
removes any existing occurrence of `x` from the in-memory record, inserts `x`
at the front, truncates to capacity, and persists exactly the new record; in
particular, when the history is `[a, b, c]` and `x = b`, the resulting
history is `[b, a, c]` with no duplicate of `b`. -/
theorem c1_update_promotes (s : ZimDashHistory) (x : String)
    (hx : x ∈ s.history_whitelist) (hlen : s.history.length ≤ s.history_size) :
    ((s.update x).1.history
        = (x :: s.history.filter (fun e => decide (e ≠ x))).take s.history_size
      ∧ (s.update x).2 = some ((s.update x).1.history))
    ∧ ∀ (t : ZimDashHistory) (a b c : String),
        t.history = [a, b, c] → b ∈ t.history_whitelist → 3 ≤ t.history_size →
        a ≠ b → c ≠ b → (t.update b).1.history = [b, a, c] := by
  constructor
  · rw [update_eq s x hx hlen]
    exact ⟨rfl, rfl⟩
  · intro t a b c ht hb hsize hab hcb
    have hlen' : t.history.length ≤ t.history_size := by
      rw [ht]; simpa using hsize
    have hfilter : t.history.filter (fun e => decide (e ≠ b)) = [a, c] := by
      rw [ht]; simp [hab, hcb]
    rw [update_eq t b hb hlen']
    show (b :: t.history.filter (fun e => decide (e ≠ b))).take t.history_size
        = [b, a, c]
    rw [hfilter]
    exact List.take_of_length_le (by simp; omega)

/-- Witness for C1 at the concrete state `["a", "b", "c"]` with `x = "b"`. -/
theorem c1_update_promotes_witness :
    ((sampleState.update "b").1.history
        = ("b" :: sampleState.history.filter (fun e => decide (e ≠ "b"))).take
            sampleState.history_size
      ∧ (sampleState.update "b").2 = some ((sampleState.update "b").1.history))
    ∧ ∀ (t : ZimDashHistory) (a b c : String),
        t.history = [a, b, c] → b ∈ t.history_whitelist → 3 ≤ t.history_size →
        a ≠ b → c ≠ b → (t.update b).1.history = [b, a, c] :=
  c1_update_promotes sampleState "b" (by decide) (by decide)

/-- Claim C2: for every history state, `next` followed by `previous` restores
the original record order and the original `current` value, and likewise
`previous` followed by `next`. -/
theorem c2_next_previous_roundtrip (s : ZimDashHistory) :
    (s.next.2.previous.2 = s ∧ s.next.2.previous.2.current = s.current)
    ∧ (s.previous.2.next.2 = s ∧ s.previous.2.next.2.current = s.current) := by
  obtain ⟨f, wl, n, h⟩ := s
  have h1 : (ZimDashHistory.mk f wl n h).next.2.previous.2
      = ZimDashHistory.mk f wl n h := by
    rw [next_state, previous_state, rotR_rotL]
  have h2 : (ZimDashHistory.mk f wl n h).previous.2.next.2
      = ZimDashHistory.mk f wl n h := by
    rw [previous_state, next_state, rotL_rotR]
  exact ⟨⟨h1, by rw [h1]⟩, ⟨h2, by rw [h2]⟩⟩

/-- Claim C4: loading a well-formed file keeps exactly the whitelisted
entries, in file order (an order-preserving sublist whose members are the
file entries that are whitelisted); loading `["a", "b", "z"]` against
whitelist `["a", "b"]` yields in-memory history `["a", "b"]`. -/
theorem c4_load_prunes_to_whitelist (h wl : List String) (e : String) :
    (ZimDashHistory.load (FileContent.valid h) wl).Sublist h
    ∧ (e ∈ ZimDashHistory.load (FileContent.valid h) wl ↔ e ∈ h ∧ e ∈ wl)
    ∧ (ZimDashHistory.init "dash.json" 5 ["a", "b"]
        (FileContent.valid ["a", "b", "z"])).history = ["a", "b"] := by
  refine ⟨?_, ?_, by decide⟩
  · show (h.filter (fun entry => decide (entry ∈ wl))).Sublist h
    exact List.filter_sublist h
  · show e ∈ h.filter (fun entry => decide (entry ∈ wl)) ↔ e ∈ h ∧ e ∈ wl
    simp [List.mem_filter]

/-- Claim C5: `update q` with a non-whitelisted `q` leaves the state
untouched and issues no write to the backing store; in particular, with an
empty whitelist `update` always no-ops. -/
theorem c5_update_rejects_non_whitelisted (s : ZimDashHistory) (q : String)
    (hq : q ∉ s.history_whitelist) :
    s.update q = (s, none)
    ∧ ∀ (t : ZimDashHistory) (r : String),
        t.history_whitelist = [] → t.update r = (t, none) := by
  refine ⟨?_, ?_⟩
  · simp [ZimDashHistory.update, hq]
  · intro t r ht
    simp [ZimDashHistory.update, ht]

/-- Witness for C5 with `q = "q"` not in the sample whitelist. -/
theorem c5_update_rejects_non_whitelisted_witness :
    sampleState.update "q" = (sampleState, none)
    ∧ ∀ (t : ZimDashHistory) (r : String),
        t.history_whitelist = [] → t.update r = (t, none) :=
  c5_update_rejects_non_whitelisted sampleState "q" (by decide)

/-- Claim C6: any failed read (missing file, unreadable file, malformed
document) loads as the empty history, and construction on such a file yields
an empty in-memory record; `_load` is total, so no exception escapes history
construction. -/
theorem c6_load_error_empty (file : FileContent) (wl : List String)
    (path : String) (size : Nat)
    (herr : readHistoryField file = Except.error ()) :
    ZimDashHistory.load file wl = []
    ∧ (ZimDashHistory.init path size wl file).history = []
    ∧ ZimDashHistory.load FileContent.absent wl = []
    ∧ ZimDashHistory.load FileContent.unreadable wl = []
    ∧ ZimDashHistory.load FileContent.malformed wl = [] := by
  have h1 : ZimDashHistory.load file wl = [] := by
    unfold ZimDashHistory.load
    rw [herr]
  refine ⟨h1, ?_, rfl, rfl, rfl⟩
  show dequeInit (ZimDashHistory.load file wl) size = []
  rw [h1]
  simp [dequeInit]

/-- Witness for C6 on the absent file. -/
theorem c6_load_error_empty_witness :
    ZimDashHistory.load FileContent.absent ["a"] = []
    ∧ (ZimDashHistory.init "dash.json" 5 ["a"] FileContent.absent).history = []
    ∧ ZimDashHistory.load FileContent.absent ["a"] = []
    ∧ ZimDashHistory.load FileContent.unreadable ["a"] = []
    ∧ ZimDashHistory.load FileContent.malformed ["a"] = [] :=
  c6_load_error_empty FileContent.absent ["a"] "dash.json" 5 rfl

/-- Claim C10: when the whitelist-filtered file content has at least `N`
entries, construction keeps exactly the last `N` of them (the oldest, the
file being most-recent-first): the in-memory record is the length-`N` suffix
and the discarded part is the front of the filtered list. -/
theorem c10_init_truncates_from_front (path : String) (file : FileContent)
    (wl : List String) (N : Nat)
    (hge : N ≤ (ZimDashHistory.load file wl).length) :
    (ZimDashHistory.init path N wl file).history
        = (ZimDashHistory.load file wl).drop
            ((ZimDashHistory.load file wl).length - N)
    ∧ (ZimDashHistory.init path N wl file).history.length = N
    ∧ ZimDashHistory.load file wl
        = (ZimDashHistory.load file wl).take
            ((ZimDashHistory.load file wl).length - N)
          ++ (ZimDashHistory.init path N wl file).history := by
  refine ⟨rfl, ?_, ?_⟩
  · show ((ZimDashHistory.load file wl).drop
        ((ZimDashHistory.load file wl).length - N)).length = N
    rw [List.length_drop]
    omega
  · show ZimDashHistory.load file wl
        = (ZimDashHistory.load file wl).take
            ((ZimDashHistory.load file wl).length - N)
          ++ (ZimDashHistory.load file wl).drop
            ((ZimDashHistory.load file wl).length - N)
    exact (List.take_append_drop _ _).symm

/-- Witness for C10: a three-entry file loaded at capacity 2 keeps the last
two entries. -/
theorem c10_init_truncates_from_front_witness :
    (ZimDashHistory.init "dash.json" 2 ["a", "b", "c"]
        (FileContent.valid ["a", "b", "c"])).history
        = (ZimDashHistory.load (FileContent.valid ["a", "b", "c"])
            ["a", "b", "c"]).drop
            ((ZimDashHistory.load (FileContent.valid ["a", "b", "c"])
              ["a", "b", "c"]).length - 2)
    ∧ (ZimDashHistory.init "dash.json" 2 ["a", "b", "c"]
        (FileContent.valid ["a", "b", "c"])).history.length = 2
    ∧ ZimDashHistory.load (FileContent.valid ["a", "b", "c"]) ["a", "b", "c"]
        = (ZimDashHistory.load (FileContent.valid ["a", "b", "c"])
            ["a", "b", "c"]).take
            ((ZimDashHistory.load (FileContent.valid ["a", "b", "c"])
              ["a", "b", "c"]).length - 2)
          ++ (ZimDashHistory.init "dash.json" 2 ["a", "b", "c"]
            (FileContent.valid ["a", "b", "c"])).history :=
  c10_init_truncates_from_front "dash.json" (FileContent.valid ["a", "b", "c"])
    ["a", "b", "c"] 2 (by decide)

/-! ### Length and duplicate-freedom lemmas for the history operations -/

theorem dequeInit_length_le (xs : List String) (N : Nat) :
    (dequeInit xs N).length ≤ N := by
  unfold dequeInit
  rw [List.length_drop]
  omega

theorem dequeAppendLeft_length_le (x : String) (d : List String) (N : Nat)
    (h : d.length ≤ N) : (dequeAppendLeft x d N).length ≤ N := by
  unfold dequeAppendLeft
  by_cases hlt : d.length < N
  · rw [if_pos hlt]
    simpa using hlt
  · rw [if_neg hlt, List.length_dropLast]
    simpa using h

theorem update_nodup (s : ZimDashHistory) (x : String) (hnd : s.history.Nodup) :
    (s.update x).1.history.Nodup := by
  unfold ZimDashHistory.update
  by_cases hx : x ∈ s.history_whitelist
  · rw [if_pos hx]
    show (dequeAppendLeft x
        (dequeInit (s.history.filter (fun e => decide (e ≠ x))) s.history_size)
        s.history_size).Nodup
    have hfil : (s.history.filter (fun e => decide (e ≠ x))).Nodup := hnd.filter _
    have hdsub :
        (dequeInit (s.history.filter (fun e => decide (e ≠ x)))
            s.history_size).Sublist
          (s.history.filter (fun e => decide (e ≠ x))) :=
      List.drop_sublist _ _
    have hdnd := hdsub.nodup hfil
    have hxd : x ∉ dequeInit (s.history.filter (fun e => decide (e ≠ x)))
        s.history_size := by
      intro hmem
      have h2 := hdsub.subset hmem
      have h3 := List.of_mem_filter h2
      simp at h3
    have hcons : (x :: dequeInit (s.history.filter (fun e => decide (e ≠ x)))
        s.history_size).Nodup := List.nodup_cons.mpr ⟨hxd, hdnd⟩
    unfold dequeAppendLeft
    by_cases hlt : (dequeInit (s.history.filter (fun e => decide (e ≠ x)))
        s.history_size).length < s.history_size
    · rw [if_pos hlt]
      exact hcons
    · rw [if_neg hlt]
      exact (List.dropLast_sublist _).nodup hcons
  · rw [if_neg hx]
    exact hnd

theorem update_length (s : ZimDashHistory) (x : String)
    (hlen : s.history.length ≤ s.history_size) :
    (s.update x).1.history.length ≤ s.history_size := by
  unfold ZimDashHistory.update
  by_cases hx : x ∈ s.history_whitelist
  · rw [if_pos hx]
    show (dequeAppendLeft x
        (dequeInit (s.history.filter (fun e => decide (e ≠ x))) s.history_size)
        s.history_size).length ≤ s.history_size
    exact dequeAppendLeft_length_le _ _ _ (dequeInit_length_le _ _)
  · rw [if_neg hx]
    exact hlen

theorem update_size (s : ZimDashHistory) (x : String) :
    (s.update x).1.history_size = s.history_size := by
  unfold ZimDashHistory.update
  by_cases hx : x ∈ s.history_whitelist
  · rw [if_pos hx]
  · rw [if_neg hx]

/-- Counterexample to claim C9 as stated: `_load` filters against the
whitelist but does not deduplicate, so a persisted document whose "history"
field is `["a", "a"]` constructs an in-memory record with a duplicate. -/
theorem c9_counterexample :
    (ZimDashHistory.init "dash.json" 5 ["a"]
        (FileContent.valid ["a", "a"])).history = ["a", "a"]
    ∧ ¬ (ZimDashHistory.init "dash.json" 5 ["a"]
        (FileContent.valid ["a", "a"])).history.Nodup := by
  constructor
  · decide
  · decide

/-- Claim C9 (amended): after construction the record holds at most
`history_size` labels for every file content, and it is duplicate-free
whenever the whitelist-filtered file list is duplicate-free (the code does
not deduplicate at load, so a duplicated persisted entry survives into the
record); `current` is a pure read of the front, and `next`, `previous` and
`update` preserve both the length bound and duplicate-freedom. -/
theorem c9_invariant_amended (path : String) (size : Nat) (wl : List String)
    (file : FileContent) (s : ZimDashHistory) (x : String)
    (hnd : s.history.Nodup) (hlen : s.history.length ≤ s.history_size) :
    (ZimDashHistory.init path size wl file).history.length ≤ size
    ∧ ((ZimDashHistory.load file wl).Nodup →
        (ZimDashHistory.init path size wl file).history.Nodup)
    ∧ s.next.2.history.Nodup
    ∧ s.next.2.history.length ≤ s.next.2.history_size
    ∧ s.previous.2.history.Nodup
    ∧ s.previous.2.history.length ≤ s.previous.2.history_size
    ∧ (s.update x).1.history.Nodup
    ∧ (s.update x).1.history.length ≤ (s.update x).1.history_size
    ∧ s.current = s.history.head? := by
  have hupd_nd := update_nodup s x hnd
  have hupd_len : (s.update x).1.history.length ≤ (s.update x).1.history_size := by
    rw [update_size]
    exact update_length s x hlen
  obtain ⟨f, w, n, h⟩ := s
  refine ⟨dequeInit_length_le _ _, ?_, ?_, ?_, ?_, ?_, hupd_nd, hupd_len, rfl⟩
  · intro hload
    exact (List.drop_sublist _ _).nodup hload
  · rw [next_state]
    exact (rotL_perm h).nodup_iff.mpr hnd
  · rw [next_state]
    show (rotL h).length ≤ n
    rw [(rotL_perm h).length_eq]
    exact hlen
  · rw [previous_state]
    exact (rotR_perm h).nodup_iff.mpr hnd
  · rw [previous_state]
    show (rotR h).length ≤ n
    rw [(rotR_perm h).length_eq]
    exact hlen

/-- Witness for the amended C9 at a concrete file, state and label. -/
theorem c9_invariant_amended_witness :
    (ZimDashHistory.init "dash.json" 5 ["a"]
        (FileContent.valid ["a"])).history.length ≤ 5
    ∧ ((ZimDashHistory.load (FileContent.valid ["a"]) ["a"]).Nodup →
        (ZimDashHistory.init "dash.json" 5 ["a"]
          (FileContent.valid ["a"])).history.Nodup)
    ∧ sampleState.next.2.history.Nodup
    ∧ sampleState.next.2.history.length ≤ sampleState.next.2.history_size
    ∧ sampleState.previous.2.history.Nodup
    ∧ sampleState.previous.2.history.length ≤ sampleState.previous.2.history_size
    ∧ (sampleState.update "b").1.history.Nodup
    ∧ (sampleState.update "b").1.history.length
        ≤ (sampleState.update "b").1.history_size
    ∧ sampleState.current = sampleState.history.head? :=
  c9_invariant_amended "dash.json" 5 ["a"] (FileContent.valid ["a"])
    sampleState "b" (by decide) (by decide)

/-! ### Recency order: dedupFirst lemmas and the fold characterization -/

theorem dedupFirst_nodup (l : List String) : (dedupFirst l).Nodup := by
  induction l with
  | nil => exact List.nodup_nil
  | cons x xs ih =>
    show (x :: (dedupFirst xs).filter (fun e => decide (e ≠ x))).Nodup
    refine List.nodup_cons.mpr ⟨?_, ih.filter _⟩
    intro hmem
    have hx := List.of_mem_filter hmem
    simp at hx

theorem mem_dedupFirst (a : String) (l : List String) :
    a ∈ dedupFirst l ↔ a ∈ l := by
  induction l with
  | nil => simp [dedupFirst]
  | cons x xs ih =>
    show a ∈ x :: (dedupFirst xs).filter (fun e => decide (e ≠ x)) ↔ a ∈ x :: xs
    by_cases hax : a = x
    · subst hax; simp
    · simp [List.mem_filter, ih, hax]

theorem dedupFirst_eq_self (l : List String) (h : l.Nodup) : dedupFirst l = l := by
  induction l with
  | nil => rfl
  | cons x xs ih =>
    obtain ⟨hx, hxs⟩ := List.nodup_cons.mp h
    show x :: (dedupFirst xs).filter (fun e => decide (e ≠ x)) = x :: xs
    rw [ih hxs]
    congr 1
    apply List.filter_eq_self.mpr
    intro a ha
    have hne : a ≠ x := fun he => hx (he ▸ ha)
    simpa using hne

theorem dedupFirst_append_dedupFirst (l m : List String) :
    dedupFirst (l ++ dedupFirst m) = dedupFirst (l ++ m) := by
  induction l with
  | nil => simpa using dedupFirst_eq_self _ (dedupFirst_nodup m)
  | cons x xs ih =>
    show x :: (dedupFirst (xs ++ dedupFirst m)).filter (fun e => decide (e ≠ x))
        = x :: (dedupFirst (xs ++ m)).filter (fun e => decide (e ≠ x))
    rw [ih]

theorem toFinset_dedupFirst (l : List String) :
    (dedupFirst l).toFinset = l.toFinset := by
  ext a
  simp [List.mem_toFinset, mem_dedupFirst]

theorem length_dedupFirst (l : List String) :
    (dedupFirst l).length = l.toFinset.card := by
  rw [← toFinset_dedupFirst]
  exact (List.toFinset_card_of_nodup (dedupFirst_nodup l)).symm

theorem length_dedupFirst_mono (l m : List String) :
    (dedupFirst m).length ≤ (dedupFirst (l ++ m)).length := by
  rw [length_dedupFirst, length_dedupFirst, List.toFinset_append]
  exact Finset.card_le_card Finset.subset_union_right

theorem applyUpdates_dedupFirst (us : List String) (f : String) (w : List String)
    (N : Nat) (h : List String)
    (hw : ∀ u ∈ us, u ∈ w) (hnd : h.Nodup) (hlen : h.length ≤ N)
    (hbound : (dedupFirst (us.reverse ++ h)).length ≤ N) :
    (applyUpdates (ZimDashHistory.mk f w N h) us).history
      = dedupFirst (us.reverse ++ h) := by
  induction us generalizing h with
  | nil =>
    simpa using (dedupFirst_eq_self h hnd).symm
  | cons u us ih =>
    have hu : u ∈ w := hw u (by simp)
    have hw' : ∀ v ∈ us, v ∈ w := fun v hv => hw v (by simp [hv])
    have heq : us.reverse ++ (u :: h) = (u :: us).reverse ++ h := by
      rw [List.reverse_cons, List.append_assoc]
      rfl
    have hD : (u :: h.filter (fun e => decide (e ≠ u))) = dedupFirst (u :: h) := by
      show _ = u :: (dedupFirst h).filter (fun e => decide (e ≠ u))
      rw [dedupFirst_eq_self h hnd]
    have hlen2 : (dedupFirst (u :: h)).length ≤ N := by
      have hm := length_dedupFirst_mono us.reverse (u :: h)
      rw [heq] at hm
      exact le_trans hm hbound
    have hstep : ((ZimDashHistory.mk f w N h).update u).1
        = ZimDashHistory.mk f w N (dedupFirst (u :: h)) := by
      rw [update_eq _ u hu hlen]
      show ZimDashHistory.mk f w N
          ((u :: h.filter (fun e => decide (e ≠ u))).take N) = _
      rw [hD, List.take_of_length_le hlen2]
    have hbound' : (dedupFirst (us.reverse ++ dedupFirst (u :: h))).length ≤ N := by
      rw [dedupFirst_append_dedupFirst, heq]
      exact hbound
    show (applyUpdates (((ZimDashHistory.mk f w N h).update u).1) us).history
        = dedupFirst ((u :: us).reverse ++ h)
    rw [hstep, ih (dedupFirst (u :: h)) hw' (dedupFirst_nodup _) hlen2 hbound',
      dedupFirst_append_dedupFirst, heq]

/-- Claim C3: starting from an empty history at capacity `N`, a run of
`N + 1` update calls drawing on `N` distinct whitelisted labels leaves the
record at exactly `N` entries: the distinct labels used, each at the position
of its most recent call (`dedupFirst` of the reversed call sequence). -/
theorem c3_updates_fill_to_capacity (N : Nat) (f : String) (w : List String)
    (us : List String) (hw : ∀ u ∈ us, u ∈ w) (hlen : us.length = N + 1)
    (hcard : us.toFinset.card = N) :
    (applyUpdates (ZimDashHistory.mk f w N []) us).history = dedupFirst us.reverse
    ∧ (applyUpdates (ZimDashHistory.mk f w N []) us).history.length = N
    ∧ (applyUpdates (ZimDashHistory.mk f w N []) us).history.Nodup
    ∧ ∀ a, a ∈ (applyUpdates (ZimDashHistory.mk f w N []) us).history ↔ a ∈ us := by
  have hdl : (dedupFirst us.reverse).length = N := by
    rw [length_dedupFirst, List.toFinset_reverse]
    exact hcard
  have hmain := applyUpdates_dedupFirst us f w N [] hw List.nodup_nil
    (by simp) (by simpa using le_of_eq hdl)
  rw [List.append_nil] at hmain
  refine ⟨hmain, ?_, ?_, ?_⟩
  · rw [hmain]
    exact hdl
  · rw [hmain]
    exact dedupFirst_nodup _
  · intro a
    rw [hmain, mem_dedupFirst, List.mem_reverse]

/-- Witness for C3: capacity 2, three calls over the two labels "a", "b". -/
theorem c3_updates_fill_to_capacity_witness :
    (applyUpdates (ZimDashHistory.mk "dash.json" ["a", "b"] 2 [])
        ["a", "b", "a"]).history = dedupFirst ["a", "b", "a"].reverse
    ∧ (applyUpdates (ZimDashHistory.mk "dash.json" ["a", "b"] 2 [])
        ["a", "b", "a"]).history.length = 2
    ∧ (applyUpdates (ZimDashHistory.mk "dash.json" ["a", "b"] 2 [])
        ["a", "b", "a"]).history.Nodup
    ∧ ∀ a, a ∈ (applyUpdates (ZimDashHistory.mk "dash.json" ["a", "b"] 2 [])
        ["a", "b", "a"]).history ↔ a ∈ ["a", "b", "a"] :=
  c3_updates_fill_to_capacity 2 "dash.json" ["a", "b"] ["a", "b", "a"]
    (by decide) (by decide) (by decide)

/-! ### Crawler lemmas -/

mutual
theorem crawl_mem : ∀ (c : MenuNode) (path p : String) (act : Nat),
    (p, act) ∈ crawl c path →
    ∃ ls, Descends c ls act ∧ p = path ++ pathExt ls
  | .leaf ol a, path, p, act, hmem => by
    simp only [crawl, List.mem_singleton, Prod.mk.injEq] at hmem
    obtain ⟨hp, ha⟩ := hmem
    subst ha
    refine ⟨[], Descends.leaf ol act, ?_⟩
    show p = path ++ ""
    rw [String.append_empty]
    exact hp
  | .menu ol cs, path, p, act, hmem => by
    obtain ⟨c, hc, s, ls, hlab, hdesc, hp⟩ :=
      crawlChildren_mem cs path p act hmem
    exact ⟨s :: ls, Descends.step ol cs c s ls act hc hlab hdesc, hp⟩

theorem crawlChildren_mem : ∀ (cs : List MenuNode) (path p : String) (act : Nat),
    (p, act) ∈ crawlChildren cs path →
    ∃ c, c ∈ cs ∧ ∃ s ls, usableLabel c = some s ∧ Descends c ls act
      ∧ p = path ++ pathExt (s :: ls)
  | [], path, p, act, hmem => by
    simp [crawlChildren] at hmem
  | c :: cs, path, p, act, hmem => by
    rw [crawlChildren] at hmem
    rcases List.mem_append.mp hmem with h1 | h2
    · cases husable : usableLabel c with
      | none =>
        rw [husable] at h1
        simp at h1
      | some l =>
        rw [husable] at h1
        obtain ⟨ls, hdesc, hp⟩ :=
          crawl_mem c (path ++ " > " ++ stripMnemonic l) p act h1
        refine ⟨c, by simp, l, ls, husable, hdesc, ?_⟩
        rw [hp, show pathExt (l :: ls) = " > " ++ stripMnemonic l ++ pathExt ls
          from rfl]
        simp [String.append_assoc]
    · obtain ⟨c', hc', s, ls, hlab, hdesc, hp⟩ :=
        crawlChildren_mem cs path p act h2
      exact ⟨c', by simp [hc'], s, ls, hlab, hdesc, hp⟩
end

theorem run_mem (forest : List MenuNode) (p : String) (act : Nat)
    (hmem : (p, act) ∈ ZimMenuBarCrawler.run forest) :
    ∃ c, c ∈ forest ∧ ∃ s ls, usableLabel c = some s ∧ Descends c ls act
      ∧ p = stripMnemonic s ++ pathExt ls := by
  induction forest with
  | nil => simp [ZimMenuBarCrawler.run] at hmem
  | cons c cs ih =>
    rw [ZimMenuBarCrawler.run] at hmem
    rcases List.mem_append.mp hmem with h1 | h2
    · cases husable : usableLabel c with
      | none =>
        rw [husable] at h1
        simp at h1
      | some l =>
        rw [husable] at h1
        obtain ⟨ls, hdesc, hp⟩ := crawl_mem c (stripMnemonic l) p act h1
        exact ⟨c, by simp, l, ls, husable, hdesc, hp⟩
    · obtain ⟨c', hc', s, ls, hlab, hdesc, hp⟩ := ih h2
      exact ⟨c', by simp [hc'], s, ls, hlab, hdesc, hp⟩

theorem run_skip (f₁ f₂ : List MenuNode) (n : MenuNode)
    (hn : usableLabel n = none) :
    ZimMenuBarCrawler.run (f₁ ++ n :: f₂) = ZimMenuBarCrawler.run (f₁ ++ f₂) := by
  induction f₁ with
  | nil =>
    show (match usableLabel n with
      | some l => crawl n (stripMnemonic l)
      | none => []) ++ ZimMenuBarCrawler.run f₂ = ZimMenuBarCrawler.run f₂
    rw [hn]
    rfl
  | cons c f₁ ih =>
    show (match usableLabel c with
      | some l => crawl c (stripMnemonic l)
      | none => []) ++ ZimMenuBarCrawler.run (f₁ ++ n :: f₂)
      = (match usableLabel c with
      | some l => crawl c (stripMnemonic l)
      | none => []) ++ ZimMenuBarCrawler.run (f₁ ++ f₂)
    rw [ih]

theorem crawlChildren_skip (c₁ c₂ : List MenuNode) (n : MenuNode) (path : String)
    (hn : usableLabel n = none) :
    crawlChildren (c₁ ++ n :: c₂) path = crawlChildren (c₁ ++ c₂) path := by
  induction c₁ with
  | nil =>
    show (match usableLabel n with
      | some l => crawl n (path ++ " > " ++ stripMnemonic l)
      | none => []) ++ crawlChildren c₂ path = crawlChildren c₂ path
    rw [hn]
    rfl
  | cons c c₁ ih =>
    show (match usableLabel c with
      | some l => crawl c (path ++ " > " ++ stripMnemonic l)
      | none => []) ++ crawlChildren (c₁ ++ n :: c₂) path
      = (match usableLabel c with
      | some l => crawl c (path ++ " > " ++ stripMnemonic l)
      | none => []) ++ crawlChildren (c₁ ++ c₂) path
    rw [ih]

/-- Claim C7: the crawl of an empty menu tree is the empty mapping; one leaf
"Save" under one submenu "File" yields exactly the pair "File > Save" with
the leaf's handle (also with mnemonic underscores stripped); and every
breadcrumb produced is the " > "-join of the stripped labels along a
root-to-leaf descent (`stripMnemonic` of the top label followed by
`pathExt`, which appends " > " plus each stripped label in path order). -/
theorem c7_breadcrumb_join (forest : List MenuNode) (p : String) (act : Nat) :
    ZimMenuBarCrawler.run [] = []
    ∧ ZimMenuBarCrawler.run
        [MenuNode.menu (some "File") [MenuNode.leaf (some "Save") 0]]
        = [("File > Save", 0)]
    ∧ ZimMenuBarCrawler.run
        [MenuNode.menu (some "_File") [MenuNode.leaf (some "_Save") 0]]
        = [("File > Save", 0)]
    ∧ ((p, act) ∈ ZimMenuBarCrawler.run forest →
        ∃ c, c ∈ forest ∧ ∃ s ls, usableLabel c = some s ∧ Descends c ls act
          ∧ p = stripMnemonic s ++ pathExt ls) := by
  exact ⟨rfl, by decide, by decide, run_mem forest p act⟩

/-- Claim C8: a node without a usable label is skipped together with its
entire subtree, both at the top level of the menu bar and inside any
submenu, and every pair in the result corresponds to a leaf reached by a
descent through nodes that all expose non-empty labels (`Descends`). -/
theorem c8_unlabeled_subtree_skipped (f₁ f₂ c₁ c₂ : List MenuNode)
    (n : MenuNode) (ol : Option String) (path : String)
    (forest : List MenuNode) (p : String) (act : Nat)
    (hn : usableLabel n = none) :
    ZimMenuBarCrawler.run (f₁ ++ n :: f₂) = ZimMenuBarCrawler.run (f₁ ++ f₂)
    ∧ crawl (MenuNode.menu ol (c₁ ++ n :: c₂)) path
        = crawl (MenuNode.menu ol (c₁ ++ c₂)) path
    ∧ ((p, act) ∈ ZimMenuBarCrawler.run forest →
        ∃ c, c ∈ forest ∧ ∃ s ls, usableLabel c = some s ∧ Descends c ls act
          ∧ p = stripMnemonic s ++ pathExt ls) := by
  refine ⟨run_skip f₁ f₂ n hn, ?_, run_mem forest p act⟩
  show crawlChildren (c₁ ++ n :: c₂) path = crawlChildren (c₁ ++ c₂) path
  exact crawlChildren_skip c₁ c₂ n path hn

/-- Witness for C8: an unlabeled leaf inserted at top level and inside a
submenu changes nothing, at the concrete one-command menu. -/
theorem c8_unlabeled_subtree_skipped_witness :
    ZimMenuBarCrawler.run
        ([] ++ MenuNode.leaf none 3
          :: [MenuNode.menu (some "File") [MenuNode.leaf (some "Save") 0]])
      = ZimMenuBarCrawler.run
        ([] ++ [MenuNode.menu (some "File") [MenuNode.leaf (some "Save") 0]])
    ∧ crawl (MenuNode.menu (some "File")
        ([] ++ MenuNode.leaf none 3 :: [MenuNode.leaf (some "Save") 0])) "File"
        = crawl (MenuNode.menu (some "File")
          ([] ++ [MenuNode.leaf (some "Save") 0])) "File"
    ∧ (("File > Save", 0) ∈ ZimMenuBarCrawler.run
          [MenuNode.menu (some "File") [MenuNode.leaf (some "Save") 0]] →
        ∃ c, c ∈ [MenuNode.menu (some "File") [MenuNode.leaf (some "Save") 0]]
          ∧ ∃ s ls, usableLabel c = some s ∧ Descends c ls 0
            ∧ "File > Save" = stripMnemonic s ++ pathExt ls) :=
  c8_unlabeled_subtree_skipped [] [MenuNode.menu (some "File")
      [MenuNode.leaf (some "Save") 0]]
    [] [MenuNode.leaf (some "Save") 0] (MenuNode.leaf none 3) (some "File")
    "File" [MenuNode.menu (some "File") [MenuNode.leaf (some "Save") 0]]
    "File > Save" 0 rfl

example : rotL ["a", "b", "c"] = ["b", "c", "a"] := by decide
example : rotR ["a", "b", "c"] = ["c", "a", "b"] := by decide
example : dequeInit ["a", "b", "c"] 2 = ["b", "c"] := by decide
example : stripMnemonic "_File" = "File" := by decide
example :
    ZimMenuBarCrawler.run [.menu (some "_File") [.leaf (some "_Save") 7]] =
      [("File > Save", 7)] := by decide
